import Mathlib

/-!
# Verification of the fixed-capacity object-pool allocators (allocator.hpp)

Shallow embedding of the allocator strategies of `src/allocator.hpp`:

* `ObjectPool`        — the size-checked pool adapter (spec: PoolAdapter);
* `ArrayAllocator`    — first-fit flag scan (spec: FixedArrayAllocator);
* `HeapAllocator`     — binary max-heap of `{state, pointer}` entries
                        (spec: PriorityFreeListAllocator);
* `StackAllocator`    — bump cursor plus LIFO reuse stack (spec: ReuseStackAllocator);
* `BlockAllocator`    — chunked intrusive free list (spec: ChunkedBlockAllocator).

Modelling conventions:

* Machine pointers are byte offsets into the allocator's backing store,
  represented as `Nat`; a nullable pointer is `Option Nat` with `none` for
  `nullptr`.  A slot index `i` corresponds to the offset `szT * i` where
  `szT` models `sizeof(T)`.
* The C++ code reports every failure by throwing `std::bad_alloc`; the spec
  names the three distinct failure checks `OutOfCapacity`, `InvalidSize` and
  `ConfigurationError`.  The embedding uses one error constructor per throw
  site, following the spec's nomenclature.
* `std::make_heap` / `std::pop_heap` / `std::push_heap` are modelled by the
  classic binary-heap algorithms (CLRS sift-down with ties keeping the
  parent, sift-up of the last element); this is one conforming
  implementation of the C++ standard's contract for these calls.  The
  comparator of the source compares only the `state` field.
* The C++ `int m_available` counters are kept as `Int`.
-/

set_option autoImplicit false

namespace MemPool

/-- The three failure kinds the spec distinguishes for the single
`std::bad_alloc` thrown at each of the three throw sites. -/
inductive AllocError where
  | outOfCapacity
  | invalidSize
  | configurationError
deriving DecidableEq

instance {ε α : Type} [DecidableEq ε] [DecidableEq α] : DecidableEq (Except ε α) :=
  fun x y =>
    match x, y with
    | .ok a, .ok b =>
      if h : a = b then .isTrue (by rw [h]) else .isFalse (fun hc => h (Except.ok.inj hc))
    | .error e, .error f =>
      if h : e = f then .isTrue (by rw [h]) else .isFalse (fun hc => h (Except.error.inj hc))
    | .ok _, .error _ => .isFalse (fun hc => Except.noConfusion hc)
    | .error _, .ok _ => .isFalse (fun hc => Except.noConfusion hc)

/-! ## ObjectPool (spec: PoolAdapter)

`ObjectPool<T, Allocator>::allocate(std::size_t n)` checks `sizeof(T) != n`
and otherwise forwards to the wrapped strategy.  The wrapped strategy is an
arbitrary state-passing allocation function. -/

/-- `ObjectPool::allocate`: fail with `InvalidSize` when the requested size
differs from `sizeof(T)`, otherwise forward to the wrapped strategy. -/
def ObjectPool.allocate {σ π : Type} (szT : Nat)
    (alloc : σ → Except AllocError (π × σ)) (n : Nat) (s : σ) :
    Except AllocError (π × σ) :=
  if szT ≠ n then .error .invalidSize else alloc s

/-- `ObjectPool::deallocate`: forward directly to the wrapped strategy. -/
def ObjectPool.deallocate {σ π : Type} (dealloc : π → σ → σ) (p : π) (s : σ) : σ :=
  dealloc p s

/-! ## Iterating allocate

`iterAlloc alloc k s` performs `k` successive `allocate` calls, recording
each call's outcome; a failed call leaves the state unchanged (the C++
exception propagates without mutating the allocator). -/

def iterAlloc {σ π : Type} (alloc : σ → Except AllocError (π × σ)) :
    Nat → σ → List (Except AllocError π) × σ
  | 0, s => ([], s)
  | k + 1, s =>
    match alloc s with
    | .ok (p, s') =>
      let r := iterAlloc alloc k s'
      (.ok p :: r.1, r.2)
    | .error e =>
      let r := iterAlloc alloc k s
      (.error e :: r.1, r.2)

/-- All recorded outcomes are successes. -/
def allOk {π : Type} (l : List (Except AllocError π)) : Prop :=
  ∀ r ∈ l, ∃ p, r = Except.ok p

/-! ## ArrayAllocator (spec: FixedArrayAllocator)

State: `bool m_used[N]`, all `false` initially.  `allocate` scans the flags
left to right, flips the first free flag and returns the matching slot
offset `sizeof(T) * i`; a full scan fails with `OutOfCapacity`.
`deallocate(p)` clears the flag at index `(p - m_data) / sizeof(T)`. -/

structure ArrayAllocator where
  m_used : List Bool
deriving DecidableEq

/-- Fresh `ArrayAllocator<T, N>`: all `N` flags cleared by the constructor. -/
def ArrayAllocator.fresh (N : Nat) : ArrayAllocator :=
  ⟨List.replicate N false⟩

/-- The `for` loop of `ArrayAllocator::allocate`: scan the flags from index
`i` upward; on the first `false` flag return the slot offset and the
updated flags. -/
def scanUsed (szT : Nat) : List Bool → Nat → Option (Nat × List Bool)
  | [], _ => none
  | b :: rest, i =>
    if b then
      (scanUsed szT rest (i + 1)).map (fun r => (r.1, b :: r.2))
    else
      some (szT * i, true :: rest)

/-- `ArrayAllocator::allocate`. -/
def ArrayAllocator.allocate (szT : Nat) (s : ArrayAllocator) :
    Except AllocError (Nat × ArrayAllocator) :=
  match scanUsed szT s.m_used 0 with
  | some (p, used) => .ok (p, ⟨used⟩)
  | none => .error .outOfCapacity

/-- `ArrayAllocator::deallocate`. -/
def ArrayAllocator.deallocate (szT : Nat) (p : Nat) (s : ArrayAllocator) :
    ArrayAllocator :=
  ⟨s.m_used.set (p / szT) false⟩

/-! ## HeapAllocator (spec: PriorityFreeListAllocator)

State: `Entry m_entry[N]` where `Entry = {State state; T* p}` with
`FREE = 1 > USED = 0`, arranged by `std::make_heap` as a binary max-heap
under `operator<` comparing only states, plus `int m_available`.

The source always passes the full range `[m_entry, m_entry + N)` to
`std::pop_heap` and `std::push_heap`, independently of `m_available`. -/

inductive EState where
  | FREE
  | USED
deriving DecidableEq

/-- The numeric values of the `State` enum: `FREE = 1`, `USED = 0`. -/
def EState.val : EState → Nat
  | .FREE => 1
  | .USED => 0

structure Entry where
  state : EState
  p : Option Nat
deriving DecidableEq

instance : Inhabited Entry := ⟨⟨.USED, none⟩⟩

/-- `Entry::operator<`: compare the `state` fields only. -/
def Entry.lt (a b : Entry) : Bool :=
  a.state.val < b.state.val

/-- Swap the entries at positions `i` and `j`. -/
def hswap (l : List Entry) (i j : Nat) : List Entry :=
  (l.set i (l.getD j default)).set j (l.getD i default)

/-- The index the sift-down step moves to: the largest of `root` and its
children within `[0, len)`, with ties keeping the parent (CLRS max-heapify
child selection). -/
def heapChild (l : List Entry) (root len : Nat) : Nat :=
  let li := 2 * root + 1
  let ri := 2 * root + 2
  let c1 := if li < len ∧ Entry.lt (l.getD root default) (l.getD li default) then li else root
  if ri < len ∧ Entry.lt (l.getD c1 default) (l.getD ri default) then ri else c1

/-- One conforming sift-down (CLRS max-heapify): move the value at `root`
down while a strictly greater child exists within `[0, len)`; ties keep
the parent.  The fuel argument bounds the recursion by `len`. -/
def siftDownAux : Nat → List Entry → Nat → Nat → List Entry
  | 0, l, _, _ => l
  | fuel + 1, l, root, len =>
    if heapChild l root len = root then l
    else siftDownAux fuel (hswap l root (heapChild l root len)) (heapChild l root len) len

def siftDown (l : List Entry) (root len : Nat) : List Entry :=
  siftDownAux len l root len

/-- `std::pop_heap(first, first + n)`: swap the root with the last element
of the range and restore the heap property on `[0, n - 1)`. -/
def popHeap (l : List Entry) (n : Nat) : List Entry :=
  if n = 0 then l else siftDown (hswap l 0 (n - 1)) 0 (n - 1)

/-- Sift the element at position `i` up while its parent is strictly
smaller. -/
def siftUpAux : Nat → List Entry → Nat → List Entry
  | 0, l, _ => l
  | fuel + 1, l, i =>
    if i = 0 then l
    else if Entry.lt (l.getD ((i - 1) / 2) default) (l.getD i default) then
      siftUpAux fuel (hswap l ((i - 1) / 2) i) ((i - 1) / 2)
    else l

/-- `std::push_heap(first, first + n)`: sift the element at `n - 1` up. -/
def pushHeap (l : List Entry) (n : Nat) : List Entry :=
  if n = 0 then l else siftUpAux n l (n - 1)

/-- `std::make_heap(first, first + n)`: sift down every internal node,
from index `n / 2 - 1` down to the root. -/
def makeHeapAux (n : Nat) : Nat → List Entry → List Entry
  | 0, l => l
  | k + 1, l => makeHeapAux n k (siftDown l k n)

def makeHeap (l : List Entry) (n : Nat) : List Entry :=
  makeHeapAux n (n / 2) l

structure HeapAllocator where
  m_entry : List Entry
  m_available : Int
deriving DecidableEq

/-- Fresh `HeapAllocator<T, N>`: `m_available = N`, entry `i` is
`{FREE, &m_data[sizeof(T) * i]}`, then `std::make_heap` over all `N`
entries. -/
def HeapAllocator.fresh (szT N : Nat) : HeapAllocator :=
  ⟨makeHeap ((List.range N).map (fun i => ⟨.FREE, some (szT * i)⟩)) N, N⟩

/-- `HeapAllocator::allocate`: guard `m_available <= 0`; copy the root
entry; `std::pop_heap` over the full range; decrement `m_available`; mark
`m_entry[m_available]` as `{USED, nullptr}`; return the copied root's
pointer. -/
def HeapAllocator.allocate (s : HeapAllocator) :
    Except AllocError (Option Nat × HeapAllocator) :=
  if s.m_available ≤ 0 then .error .outOfCapacity
  else
    let e := s.m_entry.getD 0 default
    let l := popHeap s.m_entry s.m_entry.length
    let a := s.m_available - 1
    .ok (e.p, ⟨l.set a.toNat ⟨.USED, none⟩, a⟩)

/-- `HeapAllocator::deallocate`: return immediately when `p == nullptr` or
`m_available >= N`; otherwise overwrite `m_entry[m_available]` with
`{FREE, p}`, increment `m_available` and `std::push_heap` over the full
range. -/
def HeapAllocator.deallocate (p : Option Nat) (s : HeapAllocator) : HeapAllocator :=
  if p = none ∨ (s.m_entry.length : Int) ≤ s.m_available then s
  else
    let l := s.m_entry.set s.m_available.toNat ⟨.FREE, p⟩
    ⟨pushHeap l l.length, s.m_available + 1⟩

/-! ## StackAllocator (spec: ReuseStackAllocator)

State: a bump cursor `int m_allocated` and a LIFO stack
`std::array<T*, N> m_stack` with top counter `int m_available`.  The stack
is modelled as a `List Nat` whose head is the top `m_stack[m_available - 1]`,
so `m_available = m_stack.length`; `m_stack[m_available++] = p` is a cons
and `m_stack[--m_available]` is an uncons. -/

structure StackAllocator where
  m_stack : List Nat
  m_allocated : Nat
deriving DecidableEq

/-- Fresh `StackAllocator<T, N>`: `m_allocated = 0`, `m_available = 0`. -/
def StackAllocator.fresh : StackAllocator :=
  ⟨[], 0⟩

/-- `StackAllocator::allocate`: throw when the reuse stack is empty and the
bump cursor has reached `N`; otherwise pop the stack when non-empty, else
carve the slot at offset `sizeof(T) * m_allocated` and bump the cursor. -/
def StackAllocator.allocate (szT N : Nat) (s : StackAllocator) :
    Except AllocError (Nat × StackAllocator) :=
  if s.m_stack.length = 0 ∧ N ≤ s.m_allocated then .error .outOfCapacity
  else
    match s.m_stack with
    | p :: rest => .ok (p, ⟨rest, s.m_allocated⟩)
    | [] => .ok (szT * s.m_allocated, ⟨[], s.m_allocated + 1⟩)

/-- `StackAllocator::deallocate`: push `p` on the reuse stack. -/
def StackAllocator.deallocate (p : Nat) (s : StackAllocator) : StackAllocator :=
  ⟨p :: s.m_stack, s.m_allocated⟩

/-! ## BlockAllocator (spec: ChunkedBlockAllocator)

State: the intrusive free-list head `Chunk* m_head`, the link words that
live inside the chunks' own memory (a write-once-wins association list
`mem : List (Nat × Option Nat)` from chunk address to stored link, most
recent write first; reading an address never written yields the null
link), the bases of the blocks requested from the system heap so far, and
their count.  `std::malloc` is modelled as returning pairwise disjoint
regions: block number `b` starts at `b * (szT * (K + 2))`, leaving a gap of
at least one chunk after the `K * szT` bytes actually requested. -/

structure BlockAllocator where
  m_head : Option Nat
  mem : List (Nat × Option Nat)
  blocks : Nat
deriving DecidableEq

/-- Fresh `BlockAllocator<T, ChunksPerBlock>`: `m_head = nullptr`, no block
requested. -/
def BlockAllocator.fresh : BlockAllocator :=
  ⟨none, [], 0⟩

/-- Read the link word stored at address `a` (most recent write wins);
an address never written reads as the null link. -/
def memRead : List (Nat × Option Nat) → Nat → Option Nat
  | [], _ => none
  | (b, v) :: rest, a => if a = b then v else memRead rest a

/-- Base address handed out by the modelled `std::malloc` for block number
`b` when each block requests `K * szT` bytes. -/
def blockBase (szT K b : Nat) : Nat :=
  b * (szT * (K + 2))

/-- The threading loop of `BlockAllocator::allocate_block`: starting at
`chunk`, run `k` iterations of `chunk->next = chunk + chunk_size;
chunk = chunk->next;`, then store the null link at the final `chunk`
(which, after `ChunksPerBlock` iterations, lies one whole chunk past the
`K * chunk_size` bytes obtained from `std::malloc`). -/
def writeLinks (szT : Nat) : Nat → Nat → List (Nat × Option Nat) → List (Nat × Option Nat)
  | chunk, 0, m => (chunk, none) :: m
  | chunk, k + 1, m => writeLinks szT (chunk + szT) k ((chunk, some (chunk + szT)) :: m)

/-- `BlockAllocator::allocate_block(chunk_size)`: request `K * chunk_size`
bytes from the system heap, thread the chunks, return the block's first
chunk as the new list head. -/
def BlockAllocator.allocate_block (szT K : Nat) (s : BlockAllocator) :
    Nat × BlockAllocator :=
  let base := blockBase szT K s.blocks
  (base, ⟨s.m_head, writeLinks szT base K s.mem, s.blocks + 1⟩)

/-- `BlockAllocator::allocate`: when the free list is empty, validate
`sizeof(T) < sizeof(T*)` (failing with `ConfigurationError` before any
block is requested) and otherwise request a block; then pop the list head.
`ptrSz` models `sizeof(T*)`. -/
def BlockAllocator.allocate (szT ptrSz K : Nat) (s : BlockAllocator) :
    Except AllocError (Nat × BlockAllocator) :=
  match s.m_head with
  | none =>
    if szT < ptrSz then .error .configurationError
    else
      let r := BlockAllocator.allocate_block szT K s
      .ok (r.1, ⟨memRead r.2.mem r.1, r.2.mem, r.2.blocks⟩)
  | some h => .ok (h, ⟨memRead s.mem h, s.mem, s.blocks⟩)

/-- `BlockAllocator::deallocate`: store the current head in `p`'s link
word and make `p` the new head. -/
def BlockAllocator.deallocate (p : Nat) (s : BlockAllocator) : BlockAllocator :=
  ⟨some p, (p, s.m_head) :: s.mem, s.blocks⟩

/-- Length of the free-list chain starting at a given head, following the
stored link words; the fuel bounds the walk. -/
def chainLen (m : List (Nat × Option Nat)) : Nat → Option Nat → Nat
  | _, none => 0
  | 0, some _ => 0
  | fuel + 1, some a => 1 + chainLen m fuel (memRead m a)

/-! ## Valid operation sequences

`Reach s out` holds when some interleaved sequence of `allocate` calls and
valid `deallocate` calls (every freed pointer is currently outstanding)
leads from a fresh allocator to state `s` with `out` the stack of
currently-outstanding pointers (most recent first). -/

inductive ArrayReach (szT N : Nat) : ArrayAllocator → List Nat → Prop where
  | init : ArrayReach szT N (ArrayAllocator.fresh N) []
  | alloc {s out p s'} : ArrayReach szT N s out →
      ArrayAllocator.allocate szT s = .ok (p, s') →
      ArrayReach szT N s' (p :: out)
  | dealloc {s out p} : ArrayReach szT N s out → p ∈ out →
      ArrayReach szT N (ArrayAllocator.deallocate szT p s) (out.erase p)

inductive StackReach (szT N : Nat) : StackAllocator → List Nat → Prop where
  | init : StackReach szT N StackAllocator.fresh []
  | alloc {s out p s'} : StackReach szT N s out →
      StackAllocator.allocate szT N s = .ok (p, s') →
      StackReach szT N s' (p :: out)
  | dealloc {s out p} : StackReach szT N s out → p ∈ out →
      StackReach szT N (StackAllocator.deallocate p s) (out.erase p)

inductive HeapReach (szT N : Nat) : HeapAllocator → List (Option Nat) → Prop where
  | init : HeapReach szT N (HeapAllocator.fresh szT N) []
  | alloc {s out p s'} : HeapReach szT N s out →
      HeapAllocator.allocate s = .ok (p, s') →
      HeapReach szT N s' (p :: out)
  | dealloc {s out p} : HeapReach szT N s out → p ∈ out →
      HeapReach szT N (HeapAllocator.deallocate p s) (out.erase p)

/-- Abstraction invariant for `ArrayAllocator`: the outstanding pointers
are the offsets of a duplicate-free list of slot indices, and a flag is
set exactly when its slot index is outstanding. -/
def ArrayInv (szT : Nat) (N : Nat) (s : ArrayAllocator) (out : List Nat) : Prop :=
  ∃ idxs : List Nat,
    out = idxs.map (szT * ·) ∧ idxs.Nodup ∧
    (∀ i, i ∈ idxs ↔ s.m_used.getD i false = true) ∧
    s.m_used.length = N

/-- Abstraction invariant for `StackAllocator`: the outstanding pointers
and the reuse stack partition the carved slot indices
`0, …, m_allocated - 1`. -/
def StackInv (szT : Nat) (N : Nat) (s : StackAllocator) (out : List Nat) : Prop :=
  ∃ oIdx sIdx : List Nat,
    out = oIdx.map (szT * ·) ∧ s.m_stack = sIdx.map (szT * ·) ∧
    (oIdx ++ sIdx).Perm (List.range s.m_allocated) ∧
    s.m_allocated ≤ N

/-- A trivial wrapped strategy over the unit state, used to instantiate
the `ObjectPool` statements at a concrete input. -/
def constAlloc : Unit → Except AllocError (Nat × Unit) :=
  fun _ => .ok (7, ())

/-! ## Lemmas: the first-fit scan -/

theorem scanUsed_cons_true (szT : Nat) (rest : List Bool) (a : Nat) :
    scanUsed szT (true :: rest) a =
      (scanUsed szT rest (a + 1)).map (fun r => (r.1, true :: r.2)) := rfl

theorem scanUsed_cons_false (szT : Nat) (rest : List Bool) (a : Nat) :
    scanUsed szT (false :: rest) a = some (szT * a, true :: rest) := rfl

theorem scanUsed_eq_none_iff (szT : Nat) (l : List Bool) (a : Nat) :
    scanUsed szT l a = none ↔ ∀ b ∈ l, b = true := by
  induction l generalizing a with
  | nil => simp [scanUsed]
  | cons b rest ih =>
    cases b with
    | false => simp [scanUsed_cons_false]
    | true => simp [scanUsed_cons_true, Option.map_eq_none', ih (a + 1)]

theorem scanUsed_some (szT : Nat) :
    ∀ (l : List Bool) (a p : Nat) (l' : List Bool),
      scanUsed szT l a = some (p, l') →
      ∃ i, i < l.length ∧ l.getD i false = false ∧
        (∀ j, j < i → l.getD j false = true) ∧
        p = szT * (a + i) ∧ l' = l.set i true := by
  intro l
  induction l with
  | nil => intro a p l' h; simp [scanUsed] at h
  | cons b rest ih =>
    intro a p l' h
    cases b with
    | false =>
      rw [scanUsed_cons_false] at h
      obtain ⟨hp, hl'⟩ := Prod.mk.injEq _ _ _ _ ▸ Option.some.inj h
      exact ⟨0, by simp, rfl, by omega, by simpa using hp.symm, by simp [← hl']⟩
    | true =>
      rw [scanUsed_cons_true, Option.map_eq_some'] at h
      obtain ⟨⟨p', rest'⟩, hscan, hmap⟩ := h
      obtain ⟨hp, hl'⟩ := Prod.mk.injEq _ _ _ _ ▸ hmap
      obtain ⟨i, hlen, hF, hT, hpv, hset⟩ := ih (a + 1) p' rest' hscan
      refine ⟨i + 1, by simpa using hlen, by simpa using hF, ?_, ?_, ?_⟩
      · intro j hj
        cases j with
        | zero => rfl
        | succ j => exact hT j (by omega)
      · have harith : a + 1 + i = a + (i + 1) := by omega
        rw [← hp, hpv, harith]
      · rw [← hl', hset]; rfl

theorem scanUsed_firstFree (szT : Nat) :
    ∀ (l : List Bool) (a i : Nat), i < l.length → l.getD i false = false →
      (∀ j, j < i → l.getD j false = true) →
      scanUsed szT l a = some (szT * (a + i), l.set i true) := by
  intro l
  induction l with
  | nil => intro a i h; simp at h
  | cons b rest ih =>
    intro a i hlen hF hT
    cases i with
    | zero =>
      have hb : b = false := hF
      subst hb
      rw [scanUsed_cons_false]
      simp
    | succ i =>
      have hb : b = true := hT 0 (by omega)
      subst hb
      have harith : a + 1 + i = a + (i + 1) := by omega
      have hrec := ih (a + 1) i (by simpa using hlen) (by simpa using hF)
        (fun j hj => hT (j + 1) (by omega))
      rw [scanUsed_cons_true, hrec, Option.map_some', harith]
      rfl

/-! ## Lemmas: lists of replicated flags -/

theorem replicate_getD {α : Type} (a : α) :
    ∀ (n i : Nat), (List.replicate n a).getD i a = a := by
  intro n
  induction n with
  | zero => intro i; rfl
  | succ n ih => intro i; cases i with
    | zero => rfl
    | succ i => exact ih i

theorem replicate_append_getD_lt {α : Type} (a : α) (d : α) (l : List α) :
    ∀ (k j : Nat), j < k → (List.replicate k a ++ l).getD j d = a := by
  intro k
  induction k with
  | zero => intro j h; omega
  | succ k ih =>
    intro j hj
    cases j with
    | zero => rfl
    | succ j => exact ih j (by omega)

theorem replicate_append_getD_self {α : Type} (a : α) (d : α) (l : List α) :
    ∀ (k : Nat), (List.replicate k a ++ l).getD k d = l.getD 0 d := by
  intro k
  induction k with
  | zero => rfl
  | succ k ih => exact ih

theorem replicate_append_set {α : Type} (a c : α) (l : List α) :
    ∀ (k : Nat), (List.replicate k a ++ l).set k c = List.replicate k a ++ l.set 0 c := by
  intro k
  induction k with
  | zero => rfl
  | succ k ih =>
    simp only [List.replicate_succ, List.cons_append, List.set, List.append_eq]
    rw [ih]

/-! ## Lemmas: iterated allocation and list indexing -/

theorem iterAlloc_add {σ π : Type} (alloc : σ → Except AllocError (π × σ)) (a b : Nat) :
    ∀ s : σ, iterAlloc alloc (a + b) s =
      ((iterAlloc alloc a s).1 ++ (iterAlloc alloc b (iterAlloc alloc a s).2).1,
        (iterAlloc alloc b (iterAlloc alloc a s).2).2) := by
  induction a with
  | zero => intro s; simp [iterAlloc]
  | succ a ih =>
    intro s
    rw [Nat.succ_add]
    simp only [iterAlloc]
    cases alloc s with
    | ok r => simp only [ih r.2, List.cons_append]
    | error e => simp only [ih s, List.cons_append]

theorem getD_set_self {α : Type} (c d : α) :
    ∀ (l : List α) (i : Nat), i < l.length → (l.set i c).getD i d = c := by
  intro l
  induction l with
  | nil => intro i h; simp at h
  | cons b rest ih =>
    intro i h
    cases i with
    | zero => rfl
    | succ i => exact ih i (by simpa using h)

theorem getD_set_ne {α : Type} (c d : α) :
    ∀ (l : List α) (i j : Nat), i ≠ j → (l.set i c).getD j d = l.getD j d := by
  intro l
  induction l with
  | nil => intro i j _; rfl
  | cons b rest ih =>
    intro i j hij
    cases i with
    | zero =>
      cases j with
      | zero => exact absurd rfl hij
      | succ j => rfl
    | succ i =>
      cases j with
      | zero => rfl
      | succ j => exact ih i j (by omega)

theorem getD_big {α : Type} (d : α) :
    ∀ (l : List α) (i : Nat), l.length ≤ i → l.getD i d = d := by
  intro l
  induction l with
  | nil => intro i _; rfl
  | cons b rest ih =>
    intro i h
    cases i with
    | zero => simp at h
    | succ i => exact ih i (by simpa using h)

/-! ## The ArrayAllocator abstraction invariant -/

theorem arrayReach_inv {szT N : Nat} (hszT : 0 < szT) :
    ∀ {s out}, ArrayReach szT N s out → ArrayInv szT N s out := by
  have hinj : Function.Injective (fun i => szT * i) := by
    intro x y hxy
    exact Nat.eq_of_mul_eq_mul_left hszT hxy
  intro s out h
  induction h with
  | init =>
    refine ⟨[], rfl, List.nodup_nil, ?_, by simp [ArrayAllocator.fresh]⟩
    intro i
    simp [ArrayAllocator.fresh, replicate_getD]
  | @alloc s out p s' hr hok ih =>
    obtain ⟨idxs, hout, hnd, hmemb, hlen⟩ := ih
    rcases hscan : scanUsed szT s.m_used 0 with _ | ⟨q, used⟩
    · rw [ArrayAllocator.allocate, hscan] at hok
      exact absurd hok (by simp)
    · simp only [ArrayAllocator.allocate, hscan] at hok
      obtain ⟨hqp, hs'⟩ := Prod.mk.injEq _ _ _ _ ▸ Except.ok.inj hok
      obtain ⟨i, hilen, hiF, _, hqv, hused⟩ := scanUsed_some szT _ _ _ _ hscan
      have hinot : i ∉ idxs := fun hin => by
        have := (hmemb i).mp hin
        rw [hiF] at this
        exact Bool.false_ne_true this
      refine ⟨i :: idxs, ?_, List.nodup_cons.mpr ⟨hinot, hnd⟩, ?_, ?_⟩
      · rw [List.map_cons, ← hout, ← hqp, hqv]
        simp
      · intro j
        rw [← hs', hused]
        by_cases hji : j = i
        · subst hji
          simp only [List.mem_cons, true_or]
          rw [getD_set_self _ _ _ _ hilen]
          simp
        · rw [getD_set_ne _ _ _ _ _ (fun hh => hji hh.symm)]
          simp only [List.mem_cons]
          rw [← hmemb j]
          simp [hji]
      · rw [← hs', hused, List.length_set, hlen]
  | @dealloc s out p hr hmem ih =>
    obtain ⟨idxs, hout, hnd, hmemb, hlen⟩ := ih
    rw [hout] at hmem
    obtain ⟨i, hiin, hip⟩ := List.mem_map.mp hmem
    have hidx : p / szT = i := by
      rw [← hip]
      exact Nat.mul_div_cancel_left i hszT
    have hilen : i < s.m_used.length := by
      by_contra hge
      have := getD_big false s.m_used i (by omega)
      have htrue := (hmemb i).mp hiin
      rw [this] at htrue
      exact Bool.false_ne_true htrue
    refine ⟨idxs.erase i, ?_, hnd.erase i, ?_, ?_⟩
    · rw [hout, ← hip, List.map_erase hinj]
    · intro j
      simp only [ArrayAllocator.deallocate, hidx]
      by_cases hji : j = i
      · subst hji
        rw [getD_set_self _ _ _ _ hilen]
        simp only [iff_false, Bool.false_eq_true]
        exact fun hin => ((List.Nodup.mem_erase_iff hnd).mp hin).1 rfl
      · rw [getD_set_ne _ _ _ _ _ (fun hh => hji hh.symm)]
        rw [List.Nodup.mem_erase_iff hnd, ← hmemb j]
        simp [hji]
    · simp only [ArrayAllocator.deallocate, List.length_set, hlen]

/-! ## The StackAllocator abstraction invariant -/

theorem stackReach_inv {szT N : Nat} (hszT : 0 < szT) :
    ∀ {s out}, StackReach szT N s out → StackInv szT N s out := by
  have hinj : Function.Injective (fun i => szT * i) := by
    intro x y hxy
    exact Nat.eq_of_mul_eq_mul_left hszT hxy
  intro s out h
  induction h with
  | init => exact ⟨[], [], rfl, rfl, by simp [StackAllocator.fresh], Nat.zero_le N⟩
  | @alloc s out p s' hr hok ih =>
    obtain ⟨oIdx, sIdx, hout, hstk, hperm, hle⟩ := ih
    rcases hck : s.m_stack with _ | ⟨q, rest⟩
    · -- bump path
      have hsIdx : sIdx = [] := by
        rw [hck] at hstk
        exact (List.map_eq_nil_iff.mp hstk.symm)
      have hlt : s.m_allocated < N := by
        by_contra hge
        rw [StackAllocator.allocate, if_pos ⟨by rw [hck]; rfl, by omega⟩] at hok
        exact absurd hok (by simp)
      rw [StackAllocator.allocate, if_neg (fun hc => by omega), hck] at hok
      obtain ⟨hp, hs'⟩ := Prod.mk.injEq _ _ _ _ ▸ Except.ok.inj hok
      refine ⟨s.m_allocated :: oIdx, [], ?_, by rw [← hs']; rfl, ?_,
        by rw [← hs']; show s.m_allocated + 1 ≤ N; omega⟩
      · rw [List.map_cons, ← hout, ← hp]
      · rw [← hs']
        show (s.m_allocated :: oIdx ++ []).Perm (List.range (s.m_allocated + 1))
        simp only [List.append_nil]
        rw [List.range_succ]
        refine List.Perm.trans ?_ (List.perm_append_singleton _ _).symm
        exact List.Perm.cons _ (by simpa [hsIdx] using hperm)
    · -- pop path
      have hne : s.m_stack.length ≠ 0 := by rw [hck]; simp
      rw [StackAllocator.allocate, if_neg (fun hc => hne hc.1), hck] at hok
      obtain ⟨hp, hs'⟩ := Prod.mk.injEq _ _ _ _ ▸ Except.ok.inj hok
      rcases hsIdx : sIdx with _ | ⟨j, sIdx'⟩
      · rw [hsIdx, List.map_nil] at hstk
        rw [hck] at hstk
        exact absurd hstk (by simp)
      · rw [hsIdx, List.map_cons] at hstk
        rw [hck] at hstk
        obtain ⟨hq, hrest⟩ := List.cons.injEq _ _ _ _ ▸ hstk
        refine ⟨j :: oIdx, sIdx', ?_, by rw [← hs']; exact hrest, ?_,
          by rw [← hs']; exact hle⟩
        · rw [List.map_cons, ← hout, ← hp, hq]
        · rw [← hs']
          show ((j :: oIdx) ++ sIdx').Perm (List.range s.m_allocated)
          refine List.Perm.trans List.perm_middle.symm ?_
          rw [hsIdx] at hperm
          exact hperm
  | @dealloc s out p hr hmem ih =>
    obtain ⟨oIdx, sIdx, hout, hstk, hperm, hle⟩ := ih
    rw [hout] at hmem
    obtain ⟨i, hiin, hip⟩ := List.mem_map.mp hmem
    refine ⟨oIdx.erase i, i :: sIdx, ?_, ?_, ?_, hle⟩
    · rw [hout, ← hip, List.map_erase hinj]
    · simp only [StackAllocator.deallocate, List.map_cons, ← hip, hstk]
    · refine List.Perm.trans List.perm_middle ?_
      refine List.Perm.trans ?_ hperm
      have : (i :: oIdx.erase i) ++ sIdx = i :: (oIdx.erase i ++ sIdx) := rfl
      rw [← this]
      exact List.Perm.append_right sIdx (List.perm_cons_erase hiin).symm

/-! ## Lemmas: the heap operations preserve the entry count -/

theorem length_hswap (l : List Entry) (i j : Nat) : (hswap l i j).length = l.length := by
  simp [hswap]

theorem length_siftDownAux :
    ∀ (fuel : Nat) (l : List Entry) (root len : Nat),
      (siftDownAux fuel l root len).length = l.length := by
  intro fuel
  induction fuel with
  | zero => intro l root len; rfl
  | succ fuel ih =>
    intro l root len
    rw [siftDownAux]
    split
    · rfl
    · rw [ih, length_hswap]

theorem length_siftDown (l : List Entry) (root len : Nat) :
    (siftDown l root len).length = l.length :=
  length_siftDownAux len l root len

theorem length_popHeap (l : List Entry) (n : Nat) :
    (popHeap l n).length = l.length := by
  rw [popHeap]
  split
  · rfl
  · rw [length_siftDown, length_hswap]

theorem length_siftUpAux :
    ∀ (fuel : Nat) (l : List Entry) (i : Nat),
      (siftUpAux fuel l i).length = l.length := by
  intro fuel
  induction fuel with
  | zero => intro l i; rfl
  | succ fuel ih =>
    intro l i
    rw [siftUpAux]
    split
    · rfl
    · split
      · rw [ih, length_hswap]
      · rfl

theorem length_pushHeap (l : List Entry) (n : Nat) :
    (pushHeap l n).length = l.length := by
  rw [pushHeap]
  split
  · rfl
  · rw [length_siftUpAux]

theorem length_makeHeapAux (n : Nat) :
    ∀ (k : Nat) (l : List Entry), (makeHeapAux n k l).length = l.length := by
  intro k
  induction k with
  | zero => intro l; rfl
  | succ k ih => intro l; rw [makeHeapAux, ih, length_siftDown]

theorem length_makeHeap (l : List Entry) (n : Nat) :
    (makeHeap l n).length = l.length :=
  length_makeHeapAux n (n / 2) l

theorem HeapAllocator.fresh_entry_length (szT N : Nat) :
    (HeapAllocator.fresh szT N).m_entry.length = N := by
  rw [HeapAllocator.fresh]
  show (makeHeap _ _).length = N
  rw [length_makeHeap, List.length_map, List.length_range]

/-! ## Lemmas: HeapAllocator capacity counting -/

theorem HeapAllocator.allocate_pos {s : HeapAllocator} (h : 0 < s.m_available) :
    HeapAllocator.allocate s =
      .ok ((s.m_entry.getD 0 default).p,
        ⟨(popHeap s.m_entry s.m_entry.length).set (s.m_available - 1).toNat
          ⟨.USED, none⟩, s.m_available - 1⟩) := by
  rw [HeapAllocator.allocate, if_neg (by omega)]

theorem heap_iterAlloc (k : Nat) :
    ∀ s : HeapAllocator, (k : Int) ≤ s.m_available →
      allOk (iterAlloc HeapAllocator.allocate k s).1 ∧
      (iterAlloc HeapAllocator.allocate k s).2.m_available = s.m_available - k ∧
      (iterAlloc HeapAllocator.allocate k s).2.m_entry.length = s.m_entry.length := by
  induction k with
  | zero =>
    intro s _
    exact ⟨fun r hr => absurd hr (List.not_mem_nil r), by simp [iterAlloc], rfl⟩
  | succ k ih =>
    intro s h
    have hpos : 0 < s.m_available := by
      have : ((k + 1 : Nat) : Int) = (k : Int) + 1 := by push_cast; ring
      omega
    simp only [iterAlloc, HeapAllocator.allocate_pos hpos]
    set s' : HeapAllocator :=
      ⟨(popHeap s.m_entry s.m_entry.length).set (s.m_available - 1).toNat
        ⟨.USED, none⟩, s.m_available - 1⟩ with hs'
    have hs'avail : s'.m_available = s.m_available - 1 := rfl
    have hs'len : s'.m_entry.length = s.m_entry.length := by
      rw [hs']
      show ((popHeap s.m_entry s.m_entry.length).set _ _).length = _
      rw [List.length_set, length_popHeap]
    have hk : (k : Int) ≤ s'.m_available := by
      rw [hs'avail]
      have : ((k + 1 : Nat) : Int) = (k : Int) + 1 := by push_cast; ring
      omega
    obtain ⟨hok, havail, hlen⟩ := ih s' hk
    refine ⟨?_, ?_, by rw [hlen, hs'len]⟩
    · intro r hr
      rcases List.mem_cons.mp hr with hr | hr
      · exact ⟨_, hr⟩
      · exact hok r hr
    · rw [havail, hs'avail]
      have : ((k + 1 : Nat) : Int) = (k : Int) + 1 := by push_cast; ring
      omega

/-! ## Lemmas: runs from a fresh allocator -/

theorem array_run (szT : Nat) :
    ∀ (m k : Nat),
      iterAlloc (ArrayAllocator.allocate szT) m
          ⟨List.replicate k true ++ List.replicate m false⟩ =
        ((List.range' k m).map (fun i => Except.ok (szT * i)),
          ⟨List.replicate (k + m) true⟩) := by
  intro m
  induction m with
  | zero => intro k; simp [iterAlloc]
  | succ m ih =>
    intro k
    have hscan : scanUsed szT (List.replicate k true ++ List.replicate (m + 1) false) 0 =
        some (szT * k, List.replicate (k + 1) true ++ List.replicate m false) := by
      have h1 := scanUsed_firstFree szT
        (List.replicate k true ++ List.replicate (m + 1) false) 0 k
        (by simp)
        (by rw [replicate_append_getD_self]; rfl)
        (fun j hj => replicate_append_getD_lt true false _ k j hj)
      rw [h1]
      rw [replicate_append_set]
      have h2 : (List.replicate (m + 1) false).set 0 true = true :: List.replicate m false := rfl
      rw [h2, List.append_cons, ← List.replicate_succ' k true]
      simp
    have halloc : ArrayAllocator.allocate szT ⟨List.replicate k true ++ List.replicate (m + 1) false⟩ =
        .ok (szT * k, ⟨List.replicate (k + 1) true ++ List.replicate m false⟩) := by
      simp only [ArrayAllocator.allocate, hscan]
    have harith : k + 1 + m = k + (m + 1) := by omega
    simp only [iterAlloc, halloc, ih (k + 1), harith, List.range'_succ, List.map_cons]

theorem stack_run (szT N : Nat) :
    ∀ (k j : Nat), j + k ≤ N →
      iterAlloc (StackAllocator.allocate szT N) k ⟨[], j⟩ =
        ((List.range' j k).map (fun i => Except.ok (szT * i)), ⟨[], j + k⟩) := by
  intro k
  induction k with
  | zero => intro j h; simp [iterAlloc]
  | succ k ih =>
    intro j h
    have halloc : StackAllocator.allocate szT N ⟨[], j⟩ = .ok (szT * j, ⟨[], j + 1⟩) := by
      rw [StackAllocator.allocate, if_neg]
      simp only [not_and]
      intro _
      omega
    have harith : j + 1 + k = j + (k + 1) := by omega
    simp only [iterAlloc, halloc, ih (j + 1) (by omega), harith, List.range'_succ, List.map_cons]

/-! ## Lemmas: make_heap on an all-FREE entry array is the identity

At construction every entry is FREE, the comparator sees only ties, and
the CLRS sift-down moves nothing. -/

theorem Entry.lt_free_free {a b : Entry} (ha : a.state = .FREE) (hb : b.state = .FREE) :
    Entry.lt a b = false := by
  rw [Entry.lt, ha, hb]
  rfl

theorem heapChild_allFree {l : List Entry} (hfree : ∀ e ∈ l, e.state = .FREE)
    {root len : Nat} (hlen : len ≤ l.length) (hroot : root < len) :
    heapChild l root len = root := by
  have hval : ∀ i, i < len → (l.getD i default).state = .FREE := by
    intro i hi
    have hil : i < l.length := by omega
    rw [List.getD_eq_getElem l default hil]
    exact hfree _ (List.getElem_mem hil)
  have hd : ∀ i, ¬ (i < len ∧ Entry.lt (l.getD root default) (l.getD i default) = true) := by
    intro i hc
    rw [Entry.lt_free_free (hval root hroot) (hval i hc.1)] at hc
    exact Bool.false_ne_true hc.2
  rw [heapChild]
  simp only [if_neg (hd (2 * root + 1))]
  exact if_neg (hd (2 * root + 2))

theorem siftDown_allFree {l : List Entry} (hfree : ∀ e ∈ l, e.state = .FREE)
    {root len : Nat} (hlen : len ≤ l.length) (hroot : root < len) :
    siftDown l root len = l := by
  rw [siftDown]
  cases len with
  | zero => omega
  | succ len => rw [siftDownAux, if_pos (heapChild_allFree hfree hlen hroot)]

theorem makeHeapAux_allFree {l : List Entry} (hfree : ∀ e ∈ l, e.state = .FREE)
    {n : Nat} (hn : n ≤ l.length) :
    ∀ k, k ≤ n → makeHeapAux n k l = l := by
  intro k
  induction k with
  | zero => intro _; rfl
  | succ k ih =>
    intro hk
    rw [makeHeapAux, siftDown_allFree hfree hn (by omega)]
    exact ih (by omega)

theorem makeHeap_allFree {l : List Entry} (hfree : ∀ e ∈ l, e.state = .FREE)
    {n : Nat} (hn : n ≤ l.length) : makeHeap l n = l :=
  makeHeapAux_allFree hfree hn (n / 2) (by omega)

theorem HeapAllocator.fresh_eq (szT N : Nat) :
    HeapAllocator.fresh szT N =
      ⟨(List.range N).map (fun i => ⟨.FREE, some (szT * i)⟩), (N : Int)⟩ := by
  rw [HeapAllocator.fresh]
  congr 1
  apply makeHeap_allFree
  · intro e he
    obtain ⟨i, _, hei⟩ := List.mem_map.mp he
    rw [← hei]
  · rw [List.length_map, List.length_range]

theorem HeapAllocator.fresh_first_allocate (szT N : Nat) (hN : 0 < N) :
    ∃ i s', i < N ∧
      HeapAllocator.allocate (HeapAllocator.fresh szT N) = .ok (some (szT * i), s') := by
  rw [HeapAllocator.fresh_eq]
  have havail : (0 : Int) < ((⟨(List.range N).map (fun i => ⟨.FREE, some (szT * i)⟩),
      (N : Int)⟩ : HeapAllocator)).m_available := by
    show (0 : Int) < (N : Int)
    exact_mod_cast hN
  have h0 : (0 : Nat) < ((List.range N).map
      (fun i => (⟨.FREE, some (szT * i)⟩ : Entry))).length := by
    rw [List.length_map, List.length_range]; omega
  have hroot : ((((List.range N).map
      (fun i => (⟨.FREE, some (szT * i)⟩ : Entry))).getD 0 default)).p =
      some (szT * 0) := by
    rw [List.getD_eq_getElem _ default h0, List.getElem_map, List.getElem_range]
  have h := HeapAllocator.allocate_pos havail
  dsimp only at h
  rw [hroot] at h
  exact ⟨0, _, hN, h⟩

/-- `StackAllocator::allocate` with a non-empty reuse stack always pops
its top, leaving the bump cursor untouched. -/
theorem StackAllocator.allocate_pop (szT N : Nat) (q : Nat) (rest : List Nat) (a : Nat) :
    StackAllocator.allocate szT N ⟨q :: rest, a⟩ = .ok (q, ⟨rest, a⟩) := by
  rw [StackAllocator.allocate, if_neg (fun hc => by simp at hc)]

/-- `StackAllocator::allocate` with an empty reuse stack and spare bump
capacity carves the next slot. -/
theorem StackAllocator.allocate_bump (szT N : Nat) (a : Nat) (ha : a < N) :
    StackAllocator.allocate szT N ⟨[], a⟩ = .ok (szT * a, ⟨[], a + 1⟩) := by
  rw [StackAllocator.allocate, if_neg (fun hc => by simp at hc; omega)]

/-! ## No OutOfCapacity under bounded outstanding count (array and stack)

These two lemmas settle the round-trip property for the `ArrayAllocator`
and the `StackAllocator`: along any valid sequence with fewer than `N`
slots outstanding, `allocate` cannot fail. -/

theorem arrayAllocator_no_outOfCapacity {szT N : Nat} (hszT : 0 < szT) {s out}
    (h : ArrayReach szT N s out) (hlt : out.length < N) :
    ∃ p s', ArrayAllocator.allocate szT s = .ok (p, s') := by
  obtain ⟨idxs, hout, hnd, hmemb, hlen⟩ := arrayReach_inv hszT h
  rcases hscan : scanUsed szT s.m_used 0 with _ | ⟨q, used⟩
  · exfalso
    have hall := (scanUsed_eq_none_iff szT s.m_used 0).mp hscan
    have hsub : List.range N ⊆ idxs := by
      intro i hi
      have hiN : i < N := List.mem_range.mp hi
      apply (hmemb i).mpr
      have hilen : i < s.m_used.length := by omega
      rw [List.getD_eq_getElem _ false hilen]
      exact hall _ (List.getElem_mem hilen)
    have hsp := (List.nodup_range N).subperm hsub
    have hNle := hsp.length_le
    rw [List.length_range] at hNle
    have hleneq : idxs.length = out.length := by
      rw [hout, List.length_map]
    omega
  · exact ⟨q, ⟨used⟩, by simp only [ArrayAllocator.allocate, hscan]⟩

theorem stackAllocator_no_outOfCapacity {szT N : Nat} (hszT : 0 < szT) {s out}
    (h : StackReach szT N s out) (hlt : out.length < N) :
    ∃ p s', StackAllocator.allocate szT N s = .ok (p, s') := by
  obtain ⟨oIdx, sIdx, hout, hstk, hperm, hle⟩ := stackReach_inv hszT h
  rcases s with ⟨stk, a⟩
  rcases hck : stk with _ | ⟨q, rest⟩
  · subst hck
    have hsIdx : sIdx = [] := by
      apply List.map_eq_nil_iff.mp
      exact hstk.symm
    have halen : a = out.length := by
      have h1 := hperm.length_eq
      rw [hsIdx, List.append_nil, List.length_range] at h1
      rw [hout, List.length_map]
      exact h1.symm
    exact ⟨szT * a, ⟨[], a + 1⟩, StackAllocator.allocate_bump szT N a (by omega)⟩
  · subst hck
    exact ⟨q, ⟨rest, a⟩, StackAllocator.allocate_pop szT N q rest a⟩

/-! # Claim theorems -/

/-- C1, counterexample.  `HeapAllocator` with `sizeof(T) = 1`, `N = 4`:
four straight `allocate` calls — each made while at least one slot is
genuinely free, and with at most `N` slots outstanding — return the
pointers 0, 3, 1, 3.  The fourth call, made while slot 2 is genuinely
free, returns pointer 3 again, which has been outstanding since the
second call; slot 2 is never handed out.  This refutes the claim that the
heap key order guarantees every successful `allocate` returns the pointer
of a genuinely FREE entry. -/
theorem heapAllocator_fourth_allocate_returns_outstanding :
    (iterAlloc HeapAllocator.allocate 4 (HeapAllocator.fresh 1 4)).1 =
      [.ok (some 0), .ok (some 3), .ok (some 1), .ok (some 3)] := by decide

/-- C1, amended.  The comparator does order FREE entries strictly above
USED ones (an entry compares below another exactly when it is USED and the
other FREE), and from a fresh allocator the first `allocate` succeeds,
returning the pointer of one of the `N` slots — every one of which is
genuinely free at that point, nothing being outstanding.  (Which slot it
is depends on the tie-breaking of `std::make_heap` on the all-FREE array,
which the standard leaves unspecified, so no particular index is
claimed.)  The ordering guarantee does not, however, survive interleaved
pops: stale FREE copies of popped entries remain beyond the active
region, and already a pure run of four `allocate` calls at `N = 4`
returns an outstanding pointer on the fourth call (see the
counterexample). -/
theorem heapAllocator_free_priority_amended :
    (∀ a b : Entry, Entry.lt a b = true ↔ a.state = .USED ∧ b.state = .FREE) ∧
    (∀ szT N : Nat, 0 < N →
      ∃ i s', i < N ∧
        HeapAllocator.allocate (HeapAllocator.fresh szT N) = .ok (some (szT * i), s')) := by
  constructor
  · intro a b
    rcases a with ⟨sa, pa⟩
    rcases b with ⟨sb, pb⟩
    cases sa <;> cases sb <;> simp [Entry.lt, EState.val]
  · exact fun szT N hN => HeapAllocator.fresh_first_allocate szT N hN

/-- Witness for the amended C1 theorem at a concrete input. -/
theorem heapAllocator_free_priority_amended_witness :
    Entry.lt ⟨.USED, none⟩ ⟨.FREE, some 0⟩ = true ∧
    ∃ i s', i < 4 ∧
      HeapAllocator.allocate (HeapAllocator.fresh 1 4) = .ok (some (1 * i), s') :=
  ⟨(heapAllocator_free_priority_amended.1 _ _).mpr ⟨rfl, rfl⟩,
    heapAllocator_free_priority_amended.2 1 4 (by omega)⟩

/-- C2, counterexample.  `HeapAllocator`, `sizeof(T) = 1`, `N = 4`: in the
valid sequence of four `allocate` calls with no deallocations (at most
`N` outstanding slots, no frees at all), the second and the fourth call
both return pointer 3, so the currently-outstanding pointers are not
pairwise distinct and their slots coincide. -/
theorem heapAllocator_outstanding_duplicate :
    ((iterAlloc HeapAllocator.allocate 4 (HeapAllocator.fresh 1 4)).1.getD 1
        (.error .outOfCapacity) = .ok (some 3) ∧
      (iterAlloc HeapAllocator.allocate 4 (HeapAllocator.fresh 1 4)).1.getD 3
        (.error .outOfCapacity) = .ok (some 3)) ∧
    ¬ (iterAlloc HeapAllocator.allocate 4 (HeapAllocator.fresh 1 4)).1.Nodup := by
  decide

/-- C2, amended.  For the `ArrayAllocator` and the `StackAllocator`, at
every point of every valid `allocate`/`deallocate` sequence the
currently-outstanding pointers are pairwise distinct and their
`sizeof(T)`-byte slots do not overlap.  The `HeapAllocator` violates the
original all-strategies claim (see the counterexample). -/
theorem outstanding_pointers_distinct_amended (szT N : Nat) (hszT : 0 < szT) :
    (∀ {s out}, ArrayReach szT N s out →
      out.Nodup ∧ ∀ p ∈ out, ∀ q ∈ out, p ≠ q → p + szT ≤ q ∨ q + szT ≤ p) ∧
    (∀ {s out}, StackReach szT N s out →
      out.Nodup ∧ ∀ p ∈ out, ∀ q ∈ out, p ≠ q → p + szT ≤ q ∨ q + szT ≤ p) := by
  have hinj : Function.Injective (fun i : Nat => szT * i) := fun x y hxy =>
    Nat.eq_of_mul_eq_mul_left hszT hxy
  have hdisj : ∀ (idl out : List Nat), out = idl.map (fun i => szT * i) →
      ∀ p ∈ out, ∀ q ∈ out, p ≠ q → p + szT ≤ q ∨ q + szT ≤ p := by
    intro idl out hout p hp q hq hne
    rw [hout] at hp hq
    obtain ⟨i, _, hip⟩ := List.mem_map.mp hp
    obtain ⟨j, _, hjq⟩ := List.mem_map.mp hq
    have hij : i ≠ j := fun h => hne (by rw [← hip, ← hjq, h])
    rcases Nat.lt_or_ge i j with h | h
    · left
      rw [← hip, ← hjq]
      calc szT * i + szT = szT * (i + 1) := by ring
        _ ≤ szT * j := Nat.mul_le_mul (le_refl szT) (by omega)
    · right
      rw [← hip, ← hjq]
      calc szT * j + szT = szT * (j + 1) := by ring
        _ ≤ szT * i := Nat.mul_le_mul (le_refl szT) (by omega)
  constructor
  · intro s out h
    obtain ⟨idxs, hout, hnd, _, _⟩ := arrayReach_inv hszT h
    exact ⟨hout ▸ hnd.map hinj, hdisj idxs out hout⟩
  · intro s out h
    obtain ⟨oIdx, sIdx, hout, _, hperm, _⟩ := stackReach_inv hszT h
    have hnd : oIdx.Nodup :=
      (hperm.symm.nodup (List.nodup_range _)).of_append_left
    exact ⟨hout ▸ hnd.map hinj, hdisj oIdx out hout⟩

/-- Witness for the amended C2 theorem: a concrete two-allocation array
run and a one-allocation stack run. -/
theorem outstanding_pointers_distinct_amended_witness :
    (([2, 0] : List Nat).Nodup ∧
      ∀ p ∈ ([2, 0] : List Nat), ∀ q ∈ ([2, 0] : List Nat), p ≠ q →
        p + 2 ≤ q ∨ q + 2 ≤ p) ∧
    (([0] : List Nat).Nodup ∧
      ∀ p ∈ ([0] : List Nat), ∀ q ∈ ([0] : List Nat), p ≠ q →
        p + 2 ≤ q ∨ q + 2 ≤ p) := by
  have r1 : ArrayReach 2 2 ⟨[true, false]⟩ [0] :=
    ArrayReach.alloc ArrayReach.init (by decide)
  have r2 : ArrayReach 2 2 ⟨[true, true]⟩ [2, 0] :=
    ArrayReach.alloc r1 (by decide)
  have q1 : StackReach 2 2 ⟨[], 1⟩ [0] :=
    StackReach.alloc StackReach.init (by decide)
  exact ⟨(outstanding_pointers_distinct_amended 2 2 (by omega)).1 r2,
    (outstanding_pointers_distinct_amended 2 2 (by omega)).2 q1⟩

/-- C4, code bug.  `BlockAllocator` with `ChunksPerBlock = 4` and
`sizeof(T) = sizeof(T*) = 8`: the threading loop of `allocate_block` runs
`ChunksPerBlock` times and then stores one more null link, so the chain
starting at the freshly requested block's base has length 5 — one chunk
more than the `4 * 8` bytes requested from the system heap, the last link
word being written out of bounds.  Consequently all five of the first
five allocations are served by a single block request (`blocks = 1`), and
the fifth returns offset 32, which lies past the block's
`ChunksPerBlock * sizeof(T) = 32` bytes, instead of triggering a second
block request as the claim states. -/
theorem blockAllocator_chain_overrun :
    (iterAlloc (BlockAllocator.allocate 8 8 4) 5 BlockAllocator.fresh).1 =
      [.ok 0, .ok 8, .ok 16, .ok 24, .ok 32] ∧
    (iterAlloc (BlockAllocator.allocate 8 8 4) 5 BlockAllocator.fresh).2.blocks = 1 ∧
    chainLen (iterAlloc (BlockAllocator.allocate 8 8 4) 1 BlockAllocator.fresh).2.mem 100
      (some (blockBase 8 4 0)) = 5 := by
  decide

/-- C5.  `ObjectPool::allocate(n)` with `n ≠ sizeof(T)` fails with
`InvalidSize` for every wrapped strategy and every strategy state — the
universally quantified strategy function shows the wrapped strategy is
never consulted and its state never changes; with `n = sizeof(T)` the
call is exactly the wrapped strategy's `allocate` on the unchanged
state. -/
theorem objectPool_size_check {σ π : Type} (szT n : Nat)
    (alloc : σ → Except AllocError (π × σ)) (s : σ) :
    (n ≠ szT → ObjectPool.allocate szT alloc n s = .error .invalidSize) ∧
    (n = szT → ObjectPool.allocate szT alloc n s = alloc s) := by
  constructor
  · intro hne
    rw [ObjectPool.allocate, if_pos (Ne.symm hne)]
  · intro heq
    rw [ObjectPool.allocate, if_neg (fun hc => hc heq.symm)]

/-- Witness for the C5 theorem at a concrete size and strategy. -/
theorem objectPool_size_check_witness :
    ObjectPool.allocate 4 constAlloc 5 () = .error .invalidSize ∧
    ObjectPool.allocate 4 constAlloc 4 () = constAlloc () :=
  ⟨(objectPool_size_check 4 5 constAlloc ()).1 (by omega),
    (objectPool_size_check 4 4 constAlloc ()).2 rfl⟩

/-- C9.  `BlockAllocator` with `sizeof(T) < sizeof(T*)`: `allocate` on an
empty free list fails with `ConfigurationError` and no block is requested
(the state, in particular the block-request count, is untouched).  The
validation is guarded by the empty-free-list test: whenever the free list
is non-empty, `allocate` pops the head without performing the size check
at all — so with a valid type the check cannot fail on later calls — and
with `sizeof(T*) ≤ sizeof(T)` `allocate` always succeeds. -/
theorem blockAllocator_config_check (szT ptrSz K : Nat) (s : BlockAllocator) :
    (szT < ptrSz → s.m_head = none →
      BlockAllocator.allocate szT ptrSz K s = .error .configurationError) ∧
    (∀ h, s.m_head = some h →
      BlockAllocator.allocate szT ptrSz K s =
        .ok (h, ⟨memRead s.mem h, s.mem, s.blocks⟩)) ∧
    (ptrSz ≤ szT → ∃ p s', BlockAllocator.allocate szT ptrSz K s = .ok (p, s')) := by
  refine ⟨?_, ?_, ?_⟩
  · intro hsz hhead
    simp only [BlockAllocator.allocate, hhead, if_pos hsz]
  · intro h hhead
    simp only [BlockAllocator.allocate, hhead]
  · intro hsz
    rcases hhead : s.m_head with _ | h
    · refine ⟨blockBase szT K s.blocks,
        ⟨memRead (writeLinks szT (blockBase szT K s.blocks) K s.mem)
            (blockBase szT K s.blocks),
          writeLinks szT (blockBase szT K s.blocks) K s.mem, s.blocks + 1⟩, ?_⟩
      simp only [BlockAllocator.allocate, hhead,
        if_neg (by omega : ¬ szT < ptrSz), BlockAllocator.allocate_block]
    · exact ⟨h, ⟨memRead s.mem h, s.mem, s.blocks⟩,
        by simp only [BlockAllocator.allocate, hhead]⟩

/-- Witness for the C9 theorem at concrete sizes. -/
theorem blockAllocator_config_check_witness :
    BlockAllocator.allocate 4 8 4 BlockAllocator.fresh = .error .configurationError ∧
    ∃ p s', BlockAllocator.allocate 8 8 4 BlockAllocator.fresh = .ok (p, s') :=
  ⟨(blockAllocator_config_check 4 8 4 _).1 (by omega) rfl,
    (blockAllocator_config_check 8 8 4 _).2.2 (by omega)⟩

/-- C10.  `HeapAllocator::deallocate` is a guarded no-op at the boundary:
with a null pointer, or with `m_available` at least `N` (in particular
equal to `N`, when no slot is outstanding), it returns immediately and
the state — entry array, available counter, heap arrangement — is
entirely unchanged. -/
theorem heapAllocator_deallocate_guard (p : Option Nat) (s : HeapAllocator)
    (h : p = none ∨ (s.m_entry.length : Int) ≤ s.m_available) :
    HeapAllocator.deallocate p s = s := by
  rw [HeapAllocator.deallocate, if_pos h]

/-- Witness for the C10 theorem: null pointer, and a fresh allocator with
`m_available = N`. -/
theorem heapAllocator_deallocate_guard_witness :
    HeapAllocator.deallocate none (HeapAllocator.fresh 1 2) = HeapAllocator.fresh 1 2 ∧
    HeapAllocator.deallocate (some 0) (HeapAllocator.fresh 1 2) = HeapAllocator.fresh 1 2 :=
  ⟨heapAllocator_deallocate_guard none _ (Or.inl rfl),
    heapAllocator_deallocate_guard (some 0) _ (Or.inr (by decide))⟩

/-- C3.  For each fixed-capacity strategy — FixedArrayAllocator,
PriorityFreeListAllocator, ReuseStackAllocator — starting from a fresh
instance with capacity `N`, the first `N` `allocate` calls all succeed,
and the `(N + 1)`-th call, with no intervening `deallocate`, fails with
`OutOfCapacity`. -/
theorem capacity_exhaustion (szT N : Nat) :
    (allOk (iterAlloc (ArrayAllocator.allocate szT) N (ArrayAllocator.fresh N)).1 ∧
      (iterAlloc (ArrayAllocator.allocate szT) (N + 1) (ArrayAllocator.fresh N)).1.getLast? =
        some (.error .outOfCapacity)) ∧
    (allOk (iterAlloc HeapAllocator.allocate N (HeapAllocator.fresh szT N)).1 ∧
      (iterAlloc HeapAllocator.allocate (N + 1) (HeapAllocator.fresh szT N)).1.getLast? =
        some (.error .outOfCapacity)) ∧
    (allOk (iterAlloc (StackAllocator.allocate szT N) N StackAllocator.fresh).1 ∧
      (iterAlloc (StackAllocator.allocate szT N) (N + 1) StackAllocator.fresh).1.getLast? =
        some (.error .outOfCapacity)) := by
  have hfrA : ArrayAllocator.fresh N = ⟨List.replicate 0 true ++ List.replicate N false⟩ := by
    rw [ArrayAllocator.fresh]
    rfl
  have hrunA := array_run szT N 0
  rw [Nat.zero_add] at hrunA
  have herrA : ArrayAllocator.allocate szT ⟨List.replicate N true⟩ =
      .error .outOfCapacity := by
    have hnone : scanUsed szT (List.replicate N true) 0 = none :=
      (scanUsed_eq_none_iff szT _ 0).mpr (fun b hb => List.eq_of_mem_replicate hb)
    simp only [ArrayAllocator.allocate, hnone]
  have hrunS := stack_run szT N N 0 (by omega)
  rw [Nat.zero_add] at hrunS
  have herrS : StackAllocator.allocate szT N ⟨[], N⟩ = .error .outOfCapacity := by
    rw [StackAllocator.allocate, if_pos ⟨rfl, le_refl N⟩]
  have hfravail : (N : Int) ≤ (HeapAllocator.fresh szT N).m_available := le_refl _
  obtain ⟨hokH, havailH, _⟩ := heap_iterAlloc N (HeapAllocator.fresh szT N) hfravail
  have herrH : HeapAllocator.allocate
      (iterAlloc HeapAllocator.allocate N (HeapAllocator.fresh szT N)).2 =
      .error .outOfCapacity := by
    rw [HeapAllocator.allocate, if_pos]
    rw [havailH]
    show (HeapAllocator.fresh szT N).m_available - (N : Int) ≤ 0
    show (N : Int) - (N : Int) ≤ 0
    omega
  refine ⟨⟨?_, ?_⟩, ⟨hokH, ?_⟩, ⟨?_, ?_⟩⟩
  · rw [hfrA, hrunA]
    intro r hr
    obtain ⟨i, _, hi⟩ := List.mem_map.mp hr
    exact ⟨_, hi.symm⟩
  · rw [iterAlloc_add _ N 1, hfrA, hrunA]
    simp only [iterAlloc, herrA]
    rw [List.getLast?_concat]
  · rw [iterAlloc_add _ N 1]
    simp only [iterAlloc, herrH]
    rw [List.getLast?_concat]
  · show allOk (iterAlloc (StackAllocator.allocate szT N) N ⟨[], 0⟩).1
    rw [hrunS]
    intro r hr
    obtain ⟨i, _, hi⟩ := List.mem_map.mp hr
    exact ⟨_, hi.symm⟩
  · show (iterAlloc (StackAllocator.allocate szT N) (N + 1) ⟨[], 0⟩).1.getLast? = _
    rw [iterAlloc_add _ N 1, hrunS]
    simp only [iterAlloc, herrS]
    rw [List.getLast?_concat]

/-- C6.  ReuseStackAllocator: freed slots are reused most-recently-freed
first.  Deallocating `X` then `Y` from any state with room for two more
stack entries makes the next two `allocate` calls return `Y` then `X`,
restoring the original state; `allocate` always prefers popping the reuse
stack (leaving the bump cursor untouched) over carving; never-freed slots
come from the bump path at offsets `sizeof(T) * m_allocated` in ascending
order; and the concrete `N = 2` scenario A, B, free A, free B,
allocate = B, allocate = A holds. -/
theorem stackAllocator_lifo_reuse (szT N : Nat) :
    (∀ (s : StackAllocator) (X Y : Nat), s.m_stack.length + 2 ≤ N →
      StackAllocator.allocate szT N
          (StackAllocator.deallocate Y (StackAllocator.deallocate X s)) =
        .ok (Y, ⟨X :: s.m_stack, s.m_allocated⟩) ∧
      StackAllocator.allocate szT N ⟨X :: s.m_stack, s.m_allocated⟩ = .ok (X, s)) ∧
    (∀ (q : Nat) (rest : List Nat) (a : Nat),
      StackAllocator.allocate szT N ⟨q :: rest, a⟩ = .ok (q, ⟨rest, a⟩)) ∧
    (∀ (a : Nat), a < N →
      StackAllocator.allocate szT N ⟨[], a⟩ = .ok (szT * a, ⟨[], a + 1⟩)) ∧
    ((iterAlloc (StackAllocator.allocate szT 2) 2 StackAllocator.fresh).1 =
        [.ok (szT * 0), .ok (szT * 1)] ∧
      StackAllocator.allocate szT 2
          (StackAllocator.deallocate (szT * 1)
            (StackAllocator.deallocate (szT * 0)
              (iterAlloc (StackAllocator.allocate szT 2) 2 StackAllocator.fresh).2)) =
        .ok (szT * 1, ⟨[szT * 0], 2⟩) ∧
      StackAllocator.allocate szT 2 ⟨[szT * 0], 2⟩ = .ok (szT * 0, ⟨[], 2⟩)) := by
  have hrun2 := stack_run szT 2 2 0 (by omega)
  rw [Nat.zero_add] at hrun2
  refine ⟨?_, ?_, ?_, ?_, ?_, ?_⟩
  · intro s X Y _
    constructor
    · exact StackAllocator.allocate_pop szT N Y (X :: s.m_stack) s.m_allocated
    · exact StackAllocator.allocate_pop szT N X s.m_stack s.m_allocated
  · exact fun q rest a => StackAllocator.allocate_pop szT N q rest a
  · exact fun a ha => StackAllocator.allocate_bump szT N a ha
  · show (iterAlloc (StackAllocator.allocate szT 2) 2 ⟨[], 0⟩).1 = _
    rw [hrun2]
    rfl
  · show StackAllocator.allocate szT 2
        (StackAllocator.deallocate (szT * 1) (StackAllocator.deallocate (szT * 0)
          (iterAlloc (StackAllocator.allocate szT 2) 2 ⟨[], 0⟩).2)) = _
    rw [hrun2]
    exact StackAllocator.allocate_pop szT 2 (szT * 1) [szT * 0] 2
  · exact StackAllocator.allocate_pop szT 2 (szT * 0) [] 2

/-- Witness for the C6 theorem at a concrete state and slots. -/
theorem stackAllocator_lifo_reuse_witness :
    (StackAllocator.allocate 1 3
        (StackAllocator.deallocate 9 (StackAllocator.deallocate 5 StackAllocator.fresh)) =
      .ok (9, ⟨[5], 0⟩) ∧
      StackAllocator.allocate 1 3 ⟨[5], 0⟩ = .ok (5, StackAllocator.fresh)) ∧
    StackAllocator.allocate 1 3 ⟨[], 0⟩ = .ok (1 * 0, ⟨[], 1⟩) :=
  ⟨(stackAllocator_lifo_reuse 1 3).1 StackAllocator.fresh 5 9 (by decide),
    (stackAllocator_lifo_reuse 1 3).2.2.1 0 (by omega)⟩

/-- C8.  FixedArrayAllocator: `allocate` is a first-fit left-to-right
scan — whenever index `i` holds the first clear flag, it flips exactly
that flag and returns slot `i`'s address; when every flag is set it fails
with `OutOfCapacity`.  Concretely at `N = 3`: three allocations return
slots 0, 1, 2 in ascending order, the fourth fails with `OutOfCapacity`,
and after deallocating slot 1 the next `allocate` returns slot 1 again. -/
theorem arrayAllocator_first_fit (szT : Nat) :
    (∀ (l : List Bool) (i : Nat), i < l.length → l.getD i false = false →
      (∀ j, j < i → l.getD j false = true) →
      ArrayAllocator.allocate szT ⟨l⟩ = .ok (szT * i, ⟨l.set i true⟩)) ∧
    (∀ l : List Bool, (∀ b ∈ l, b = true) →
      ArrayAllocator.allocate szT ⟨l⟩ = .error .outOfCapacity) ∧
    (0 < szT →
      (iterAlloc (ArrayAllocator.allocate szT) 4 (ArrayAllocator.fresh 3)).1 =
        [.ok (szT * 0), .ok (szT * 1), .ok (szT * 2), .error .outOfCapacity] ∧
      ArrayAllocator.allocate szT
          (ArrayAllocator.deallocate szT (szT * 1)
            (iterAlloc (ArrayAllocator.allocate szT) 4 (ArrayAllocator.fresh 3)).2) =
        .ok (szT * 1, ⟨[true, true, true]⟩)) := by
  have hfit : ∀ (l : List Bool) (i : Nat), i < l.length → l.getD i false = false →
      (∀ j, j < i → l.getD j false = true) →
      ArrayAllocator.allocate szT ⟨l⟩ = .ok (szT * i, ⟨l.set i true⟩) := by
    intro l i hlen hF hT
    have hscan := scanUsed_firstFree szT l 0 i hlen hF hT
    rw [Nat.zero_add] at hscan
    simp only [ArrayAllocator.allocate, hscan]
  have hfull : ∀ l : List Bool, (∀ b ∈ l, b = true) →
      ArrayAllocator.allocate szT ⟨l⟩ = .error .outOfCapacity := by
    intro l hall
    have hnone : scanUsed szT l 0 = none := (scanUsed_eq_none_iff szT l 0).mpr hall
    simp only [ArrayAllocator.allocate, hnone]
  refine ⟨hfit, hfull, ?_⟩
  intro hszT
  have hrun := array_run szT 3 0
  rw [Nat.zero_add] at hrun
  have h4 : iterAlloc (ArrayAllocator.allocate szT) 4 (ArrayAllocator.fresh 3) =
      ([.ok (szT * 0), .ok (szT * 1), .ok (szT * 2), .error .outOfCapacity],
        ⟨List.replicate 3 true⟩) := by
    show iterAlloc (ArrayAllocator.allocate szT) (3 + 1) (ArrayAllocator.fresh 3) = _
    rw [iterAlloc_add]
    have hfr : ArrayAllocator.fresh 3 = ⟨List.replicate 0 true ++ List.replicate 3 false⟩ := rfl
    rw [hfr, hrun]
    simp only [iterAlloc, hfull (List.replicate 3 true)
      (fun b hb => List.eq_of_mem_replicate hb)]
    rfl
  constructor
  · rw [h4]
  · rw [h4]
    show ArrayAllocator.allocate szT
        (ArrayAllocator.deallocate szT (szT * 1) ⟨List.replicate 3 true⟩) = _
    have hdiv : szT * 1 / szT = 1 := Nat.mul_div_cancel_left 1 hszT
    have hset : (ArrayAllocator.deallocate szT (szT * 1) ⟨List.replicate 3 true⟩) =
        ⟨[true, false, true]⟩ := by
      rw [ArrayAllocator.deallocate]
      show (⟨(List.replicate 3 true).set (szT * 1 / szT) false⟩ : ArrayAllocator) = _
      rw [hdiv]
      rfl
    rw [hset]
    have := hfit [true, false, true] 1 (by simp) rfl
      (fun j hj => by
        have hj0 : j = 0 := by omega
        subst hj0
        rfl)
    rw [this]
    rfl

/-- Witness for the C8 theorem at concrete flag arrays. -/
theorem arrayAllocator_first_fit_witness :
    ArrayAllocator.allocate 1 ⟨[true, false]⟩ = .ok (1 * 1, ⟨[true, false].set 1 true⟩) ∧
    ArrayAllocator.allocate 1 ⟨[true]⟩ = .error .outOfCapacity ∧
    (iterAlloc (ArrayAllocator.allocate 1) 4 (ArrayAllocator.fresh 3)).1 =
      [.ok (1 * 0), .ok (1 * 1), .ok (1 * 2), .error .outOfCapacity] :=
  ⟨(arrayAllocator_first_fit 1).1 [true, false] 1 (by decide) rfl
      (fun j hj => by
        have hj0 : j = 0 := by omega
        subst hj0
        rfl),
    (arrayAllocator_first_fit 1).2.1 [true] (fun b hb => List.mem_singleton.mp hb),
    ((arrayAllocator_first_fit 1).2.2 (by omega)).1⟩

end MemPool
